import Mathlib

/-!
Verification of the nimby ingress proxy (Go) against its specification.

The development shallowly embeds the routing core of the repository:

* helpers.go   — tag extraction (DomainTag, WeightTag, ProtoTag, PathTag),
                 upstream URL construction (UpstreamService);
* balancer.go  — the weighted-random balancer (WeightedRandom) with its
                 copy-on-write Add / Del / Rehash / Next operations and the
                 distinguished terminal empty value;
* controller.go — the domain registry (a map from domain to balancer
                 snapshot) with Add / Del / dispatch, and the pure part of
                 the Updater synchronization loop (watch-set resolution and
                 resume-index tracking).

Go machine integers are modelled as Nat (weights and indices are uint64 in
the source and never subtracted); Go maps are modelled as association lists
keyed by strings (map iteration order is unspecified in Go, list order is
one admissible order); fallible lookups return Option.
-/

/-! ## Tag parsing (helpers.go) -/

/-- Tag prefixes from helpers.go. -/
def DomainTagPfx : String := "nimby-domain:"

def WeightTagPfx : String := "nimby-weight:"

def ProtoTagPfx : String := "nimby-proto:"

def PathTagPfx : String := "nimby-path:"

/-- Model of strings.CutPrefix restricted to the found case: returns the
string after the leading pattern when present, none otherwise.  (Go also
returns the original string with ok = false; every call site in the
repository consults ok, so the Option model is faithful.)  Stated on the
character lists underlying the strings. -/
def cutPfx (s pat : String) : Option String :=
  if pat.data.isPrefixOf s.data then some (String.mk (s.data.drop pat.data.length))
  else none

/-- Model of the digit loop of Go strconv.ParseUint(s, 10, 8), n the
accumulator: a non-digit yields 0 (syntax error path), accumulator at or
above the cutoff 26 yields the clamp value 255 (range error path), and a
step that exceeds 255 also yields 255 (range error path).  Go returns the
error alongside; WeightTag discards it, so only the value is modelled. -/
def parseUint8Loop : List Char → Nat → Nat
  | [], n => n
  | c :: rest, n =>
    if c.isDigit then
      if 26 ≤ n then 255
      else
        let n1 := n * 10 + (c.toNat - 48)
        if 255 < n1 then 255 else parseUint8Loop rest n1
    else 0

/-- Model of Go strconv.ParseUint(s, 10, 8) as used by WeightTag: the value
for well-formed input, 0 on a syntax error, 255 on a range error. -/
def parseUint8 (s : String) : Nat :=
  if s.data.isEmpty then 0 else parseUint8Loop s.data 0

/-- DomainTag from helpers.go: the value of the first tag carrying the
nimby-domain marker, if any. -/
def DomainTag : List String → Option String
  | [] => none
  | tag :: rest =>
    match cutPfx tag DomainTagPfx with
    | some value => some value
    | none => DomainTag rest

/-- WeightTag from helpers.go: scans the tags in order; each tag carrying
the nimby-weight marker is parsed with ParseUint(_, 10, 8) and the first
positive parse is returned with true; otherwise the loop continues and the
fallback is the pair of 1 and false. -/
def WeightTag : List String → Nat × Bool
  | [] => (1, false)
  | tag :: rest =>
    match cutPfx tag WeightTagPfx with
    | some val =>
      let value := parseUint8 val
      if 0 < value then (value, true) else WeightTag rest
    | none => WeightTag rest

/-- ProtoTag from helpers.go. -/
def ProtoTag : List String → Option String
  | [] => none
  | tag :: rest =>
    match cutPfx tag ProtoTagPfx with
    | some value => some value
    | none => ProtoTag rest

/-- PathTag from helpers.go. -/
def PathTag : List String → Option String
  | [] => none
  | tag :: rest =>
    match cutPfx tag PathTagPfx with
    | some value => some value
    | none => PathTag rest

/-! ## Service records and upstream URLs -/

/-- The fields of a Nomad api.ServiceRegistration consumed by the
repository. -/
structure ServiceRegistration where
  ID : String
  ServiceName : String
  Namespace : String
  JobID : String
  AllocID : String
  Address : String
  Port : Int
  Tags : List String
deriving DecidableEq, Repr

/-- The components of a Go url.URL populated by UpstreamService. -/
structure URL where
  Scheme : String
  Host : String
  Path : String
deriving DecidableEq, Repr

/-- Model of net.JoinHostPort: a host containing a colon is bracketed. -/
def joinHostPort (host port : String) : String :=
  if host.data.contains ':' then "[" ++ host ++ "]:" ++ port
  else host ++ ":" ++ port

/-- UpstreamService from helpers.go: scheme and path default to http and
the root path and are overridden by the proto and path tags. -/
def UpstreamService (service : ServiceRegistration) : URL :=
  { Scheme :=
      match ProtoTag service.Tags with
      | some value => value
      | none => "http"
    Host := joinHostPort service.Address (toString service.Port)
    Path :=
      match PathTag service.Tags with
      | some value => value
      | none => "/" }

/-! ## The weighted-random balancer (balancer.go) -/

/-- WeightedUpstream from balancer.go. -/
structure WeightedUpstream where
  ID : String
  JobID : String
  AllocID : String
  Weight : Nat
  Endpoint : URL
deriving DecidableEq, Repr

/-- WeightedRandom from balancer.go.  The Go map of upstreams keyed by id
is an association list; the random reader is not part of the state (Next
takes the drawn bytes as an argument). -/
structure WeightedRandom where
  Upstreams : List (String × WeightedUpstream)
  Total : Nat
  weighted : List WeightedUpstream
deriving DecidableEq, Repr

/-- The two balancer shapes stored behind the Handler interface: a
populated WeightedRandom, or the distinguished terminal empty value. -/
inductive Handler where
  | wr (b : WeightedRandom)
  | empty
deriving DecidableEq, Repr

/-- Lookup in an association list keyed by strings; models indexing a Go
map. -/
def lookupKey {α : Type} : List (String × α) → String → Option α
  | [], _ => none
  | (k, v) :: rest, key => if k = key then some v else lookupKey rest key

/-- NewBalancer from balancer.go: the strategy tags are currently ignored
and a zero-valued WeightedRandom is produced. -/
def NewBalancer (_tags : List String) : WeightedRandom :=
  { Upstreams := [], Total := 0, weighted := [] }

/-- Rehash from balancer.go: rebuild the weighted lookup table, each
backend repeated Weight times, in the iteration order of the upstream
map. -/
def WeightedRandom.Rehash (balancer : WeightedRandom) : WeightedRandom :=
  { balancer with
    weighted :=
      (balancer.Upstreams.map Prod.snd).flatMap
        (fun backend => List.replicate backend.Weight backend) }

/-- Add from balancer.go: a no-op when the id is already present;
otherwise the upstream map is rebuilt with the new backend inserted, the
total recomputed as the new weight plus the sum of existing weights, and
the table rehashed. -/
def WeightedRandom.Add (balancer : WeightedRandom) (service : ServiceRegistration) :
    WeightedRandom :=
  if (lookupKey balancer.Upstreams service.ID).isSome then balancer
  else
    let weight := (WeightTag service.Tags).1
    let backend : WeightedUpstream :=
      { ID := service.ID
        JobID := service.JobID
        AllocID := service.AllocID
        Weight := weight
        Endpoint := UpstreamService service }
    WeightedRandom.Rehash
      { Upstreams := (service.ID, backend) :: balancer.Upstreams
        Total :=
          weight + ((balancer.Upstreams.map Prod.snd).map (fun b => b.Weight)).sum
        weighted := balancer.weighted }

/-- Del from balancer.go: a no-op when the id is absent; otherwise the
upstream map is rebuilt without the backend and the total recomputed; an
emptied balancer collapses to the terminal empty value, else the table is
rehashed. -/
def WeightedRandom.Del (balancer : WeightedRandom) (service : ServiceRegistration) :
    Handler :=
  if (lookupKey balancer.Upstreams service.ID).isSome then
    let backends := balancer.Upstreams.filter (fun p => p.1 != service.ID)
    if backends.length = 0 then Handler.empty
    else
      Handler.wr
        (WeightedRandom.Rehash
          { Upstreams := backends
            Total := ((backends.map Prod.snd).map (fun b => b.Weight)).sum
            weighted := balancer.weighted })
  else Handler.wr balancer

/-- Handler.Add dispatch: WeightedRandom.Add keeps the populated shape;
empty.Add builds a fresh balancer via NewBalancer and adds into it. -/
def Handler.Add : Handler → ServiceRegistration → Handler
  | .wr b, service => .wr (b.Add service)
  | .empty, service => .wr ((NewBalancer service.Tags).Add service)

/-- Handler.Del dispatch: empty.Del returns itself. -/
def Handler.Del : Handler → ServiceRegistration → Handler
  | .wr b, service => b.Del service
  | .empty, _ => .empty

/-- The Empty predicate: false for WeightedRandom (notEmpty embedding),
true for the terminal empty value. -/
def Handler.Empty : Handler → Bool
  | .wr _ => false
  | .empty => true

/-- Upstream set behind a handler: the terminal empty value has none. -/
def Handler.ups : Handler → List (String × WeightedUpstream)
  | .wr b => b.Upstreams
  | .empty => []

/-- Total weight behind a handler: the terminal empty value has zero. -/
def Handler.total : Handler → Nat
  | .wr b => b.Total
  | .empty => 0

/-! ## Selection (Next, balancer.go lines 97 to 116) -/

/-- The big-endian decode in Next: the byte at offset 7 is the low byte
and the byte at offset 0 is shifted by 56 bits. -/
def beValue (buf : List Nat) : Nat :=
  buf.getD 7 0 + (buf.getD 6 0) <<< 8 + (buf.getD 5 0) <<< 16 +
    (buf.getD 4 0) <<< 24 + (buf.getD 3 0) <<< 32 + (buf.getD 2 0) <<< 40 +
    (buf.getD 1 0) <<< 48 + (buf.getD 0 0) <<< 56

/-- Next from balancer.go with the 8 drawn random bytes passed as an
argument: the big-endian value is reduced modulo Total and indexes the
weighted table.  The none results model the Go panics on a zero total
(integer division by zero) and on an out-of-range table index; the safety
claim shows neither occurs for balancers installed by the controller. -/
def WeightedRandom.Next (balancer : WeightedRandom) (buf : List Nat) :
    Option WeightedUpstream :=
  if balancer.Total = 0 then none
  else balancer.weighted[beValue buf % balancer.Total]?

/-- The big-endian byte decomposition of a 64-bit value, inverse of
beValue on the uniform sample space of Next. -/
def toBytes (v : Nat) : List Nat :=
  [(v >>> 56) % 256, (v >>> 48) % 256, (v >>> 40) % 256, (v >>> 32) % 256,
   (v >>> 24) % 256, (v >>> 16) % 256, (v >>> 8) % 256, v % 256]

/-- The number of 64-bit draws on which Next selects the given upstream:
the counting measure of the selection event on the uniform sample space of
2 to the 64th byte strings. -/
def countSel (balancer : WeightedRandom) (u : WeightedUpstream) : Nat :=
  ((Finset.range (2 ^ 64)).filter
    (fun v => balancer.Next (toBytes v) = some u)).card

/-! ## The controller registry (controller.go) -/

/-- The routable state of a Controller: its sync.Map from domain to the
installed Handler snapshot, modelled as an association list. -/
abbrev Registry : Type := List (String × Handler)

/-- Model of sync.Map.Store: replace the value at the key, or append a
fresh binding. -/
def storeKey {α : Type} : List (String × α) → String → α → List (String × α)
  | [], key, v => [(key, v)]
  | (k, v') :: rest, key, v =>
    if k = key then (key, v) :: rest else (k, v') :: storeKey rest key v

/-- Model of sync.Map.Delete: drop the binding at the key. -/
def eraseKey {α : Type} : List (String × α) → String → List (String × α)
  | [], _ => []
  | (k, v') :: rest, key =>
    if k = key then rest else (k, v') :: eraseKey rest key

/-- Controller.Add from controller.go: a no-op without a domain tag; else
the current balancer for the domain (or a fresh one) absorbs the
registration and the result is stored under the domain. -/
def Controller.Add (reg : Registry) (service : ServiceRegistration) : Registry :=
  match DomainTag service.Tags with
  | none => reg
  | some domain =>
    let balancer :=
      match lookupKey reg domain with
      | some h => h
      | none => Handler.wr (NewBalancer service.Tags)
    storeKey reg domain (balancer.Add service)

/-- Controller.Del from controller.go: a no-op without a domain tag or
without a registry entry; else the balancer's Del is computed and an
emptied balancer removes the domain key while a populated one is stored
back. -/
def Controller.Del (reg : Registry) (service : ServiceRegistration) : Registry :=
  match DomainTag service.Tags with
  | none => reg
  | some domain =>
    match lookupKey reg domain with
    | none => reg
    | some balancer =>
      let balancer' := balancer.Del service
      if balancer'.Empty then eraseKey reg domain
      else storeKey reg domain balancer'

/-- Outcome of serving one request, abstracting the HTTP side effects. -/
inductive HTTPResult where
  | notFound
  | forwardedTo (u : WeightedUpstream)
  | internalError
deriving DecidableEq, Repr

/-- Serving a request through a handler, with the 8 random bytes of Next
passed in: a populated balancer forwards to the selected upstream (500 on
a failed selection), the terminal empty value answers 404. -/
def Handler.Serve : Handler → List Nat → HTTPResult
  | .wr b, buf =>
    match b.Next buf with
    | some u => .forwardedTo u
    | none => .internalError
  | .empty, _ => .notFound

/-- Controller.ServeHTTP from controller.go: dispatch on the request Host;
an unknown host answers 404, a known host forwards into the installed
balancer snapshot. -/
def Controller.Dispatch (reg : Registry) (host : String) (buf : List Nat) :
    HTTPResult :=
  match lookupKey reg host with
  | some balancer => balancer.Serve buf
  | none => .notFound

/-! ## The Updater synchronization loop (controller.go), pure parts -/

/-- The resume-index fold of Controller.Updater lines 197 to 212: index
starts at zero and, for each service, a LastIndex above the running index
replaces it by LastIndex plus one. -/
def resumeIndex (observed : List Nat) : Nat :=
  observed.foldl (fun index last => if index < last then last + 1 else index) 0

/-- State of the Go slice aliasing in the wildcard expansion of
Controller.Updater: orig is the backing array still viewed by
controller.WatchServices, cur the backing array of the local services
slice, len its length, and shared whether the two still alias (capacity
equals the backing length, as produced by strings.Split). -/
structure SliceSt where
  orig : List String
  cur : List String
  len : Nat
  shared : Bool
deriving DecidableEq, Repr

/-- One Go append onto the reslied services slice: within capacity the
element is written in place (visible through the alias while shared);
beyond capacity the backing array is reallocated and the alias is
broken. -/
def appendName (st : SliceSt) (x : String) : SliceSt :=
  if st.len < st.cur.length then
    let cur' := st.cur.set st.len x
    { orig := if st.shared then cur' else st.orig
      cur := cur'
      len := st.len + 1
      shared := st.shared }
  else
    { orig := st.orig
      cur := st.cur.take st.len ++ [x]
      len := st.len + 1
      shared := false }

/-- The wildcard resolution of Controller.Updater lines 181 to 194
together with the topic set passed to Stream at lines 224 to 225: when the
watch list contains the star marker, the local services slice is resliced
to length zero over the same backing array and the listed service names
are appended.  The first component is the services list the snapshot loop
iterates; the second is the value of controller.WatchServices afterwards,
which is what the Stream call sends as its topic filter. -/
def resolveWatch (watch listing : List String) : List String × List String :=
  if "*" ∈ watch then
    let st := listing.foldl appendName
      { orig := watch, cur := watch, len := 0, shared := true }
    (st.cur.take st.len, st.orig)
  else (watch, watch)

/-! ## Basic facts about tag parsing -/

theorem parseUint8Loop_le (cs : List Char) : ∀ n : Nat, n ≤ 255 → parseUint8Loop cs n ≤ 255 := by
  induction cs with
  | nil => intro n hn; simpa [parseUint8Loop] using hn
  | cons c rest ih =>
    intro n hn
    simp only [parseUint8Loop]
    split
    · split
      · omega
      · split
        · omega
        · exact ih _ (by omega)
    · omega

theorem parseUint8_le (s : String) : parseUint8 s ≤ 255 := by
  unfold parseUint8
  split
  · omega
  · exact parseUint8Loop_le _ 0 (by omega)

theorem weightTag_pos (tags : List String) : 1 ≤ (WeightTag tags).1 := by
  induction tags with
  | nil => simp [WeightTag]
  | cons tag rest ih =>
    simp only [WeightTag]
    cases h : cutPfx tag WeightTagPfx with
    | none => simpa using ih
    | some val =>
      simp only []
      split
      · omega
      · exact ih

theorem weightTag_le (tags : List String) : (WeightTag tags).1 ≤ 255 := by
  induction tags with
  | nil => simp [WeightTag]
  | cons tag rest ih =>
    simp only [WeightTag]
    cases h : cutPfx tag WeightTagPfx with
    | none => simpa using ih
    | some val =>
      simp only []
      split
      · exact parseUint8_le val
      · exact ih

/-! ## Association-list lemmas for the Go map models -/

theorem lookupKey_mem {α : Type} {l : List (String × α)} {k : String} {v : α}
    (h : lookupKey l k = some v) : (k, v) ∈ l := by
  induction l with
  | nil => simp [lookupKey] at h
  | cons p rest ih =>
    obtain ⟨k', v'⟩ := p
    simp only [lookupKey] at h
    by_cases hk : k' = k
    · subst hk
      rw [if_pos rfl] at h
      obtain rfl : v' = v := by injection h
      exact List.mem_cons_self _ _
    · rw [if_neg hk] at h
      exact List.mem_cons_of_mem _ (ih h)

theorem lookupKey_eq_none {α : Type} {l : List (String × α)} {k : String} :
    lookupKey l k = none ↔ k ∉ l.map Prod.fst := by
  induction l with
  | nil => simp [lookupKey]
  | cons p rest ih =>
    obtain ⟨k', v'⟩ := p
    simp only [lookupKey, List.map_cons, List.mem_cons]
    by_cases hk : k' = k
    · subst hk; simp
    · rw [if_neg hk]
      simp only [ih]
      constructor
      · intro h hcase
        rcases hcase with hcase | hcase
        · exact hk hcase.symm
        · exact h hcase
      · intro h hmem
        exact h (Or.inr hmem)

theorem mem_storeKey {α : Type} {l : List (String × α)} {k : String} {v : α} {p : String × α}
    (h : p ∈ storeKey l k v) : p = (k, v) ∨ p ∈ l := by
  induction l with
  | nil => simpa [storeKey] using h
  | cons q rest ih =>
    obtain ⟨k', v'⟩ := q
    simp only [storeKey] at h
    by_cases hk : k' = k
    · rw [if_pos hk] at h
      rcases List.mem_cons.mp h with h | h
      · exact Or.inl h
      · exact Or.inr (List.mem_cons_of_mem _ h)
    · rw [if_neg hk] at h
      rcases List.mem_cons.mp h with h | h
      · exact Or.inr (h ▸ List.mem_cons_self _ _)
      · rcases ih h with h | h
        · exact Or.inl h
        · exact Or.inr (List.mem_cons_of_mem _ h)

theorem mem_map_fst_storeKey {α : Type} {l : List (String × α)} {k a : String} {v : α} :
    a ∈ (storeKey l k v).map Prod.fst ↔ a = k ∨ a ∈ l.map Prod.fst := by
  induction l with
  | nil => simp [storeKey]
  | cons q rest ih =>
    obtain ⟨k', v'⟩ := q
    simp only [storeKey]
    by_cases hk : k' = k
    · subst hk; simp
    · rw [if_neg hk]
      simp only [List.map_cons, List.mem_cons, ih]
      tauto

theorem nodup_storeKey {α : Type} {l : List (String × α)} {k : String} {v : α}
    (h : (l.map Prod.fst).Nodup) : ((storeKey l k v).map Prod.fst).Nodup := by
  induction l with
  | nil => simp [storeKey]
  | cons q rest ih =>
    obtain ⟨k', v'⟩ := q
    simp only [List.map_cons, List.nodup_cons] at h
    simp only [storeKey]
    by_cases hk : k' = k
    · subst hk
      rw [if_pos rfl]
      simp only [List.map_cons, List.nodup_cons]
      exact h
    · rw [if_neg hk]
      simp only [List.map_cons, List.nodup_cons]
      refine ⟨?_, ih h.2⟩
      intro hmem
      rcases mem_map_fst_storeKey.mp hmem with hmem | hmem
      · exact hk hmem
      · exact h.1 hmem

theorem mem_eraseKey {α : Type} {l : List (String × α)} {k : String} {p : String × α}
    (h : p ∈ eraseKey l k) : p ∈ l := by
  induction l with
  | nil => simpa [eraseKey] using h
  | cons q rest ih =>
    obtain ⟨k', v'⟩ := q
    simp only [eraseKey] at h
    by_cases hk : k' = k
    · rw [if_pos hk] at h
      exact List.mem_cons_of_mem _ h
    · rw [if_neg hk] at h
      rcases List.mem_cons.mp h with h | h
      · exact h ▸ List.mem_cons_self _ _
      · exact List.mem_cons_of_mem _ (ih h)

theorem nodup_eraseKey {α : Type} {l : List (String × α)} {k : String}
    (h : (l.map Prod.fst).Nodup) : ((eraseKey l k).map Prod.fst).Nodup := by
  induction l with
  | nil => simpa [eraseKey] using h
  | cons q rest ih =>
    obtain ⟨k', v'⟩ := q
    simp only [List.map_cons, List.nodup_cons] at h
    simp only [eraseKey]
    by_cases hk : k' = k
    · rw [if_pos hk]; exact h.2
    · rw [if_neg hk]
      simp only [List.map_cons, List.nodup_cons]
      refine ⟨?_, ih h.2⟩
      intro hmem
      exact h.1 (List.mem_map.mpr (by
        obtain ⟨p, hp, hfst⟩ := List.mem_map.mp hmem
        exact ⟨p, mem_eraseKey hp, hfst⟩))

theorem lookupKey_eraseKey_self {α : Type} {l : List (String × α)} {k : String}
    (h : (l.map Prod.fst).Nodup) : lookupKey (eraseKey l k) k = none := by
  induction l with
  | nil => simp [eraseKey, lookupKey]
  | cons q rest ih =>
    obtain ⟨k', v'⟩ := q
    simp only [List.map_cons, List.nodup_cons] at h
    simp only [eraseKey]
    by_cases hk : k' = k
    · subst hk
      rw [if_pos rfl]
      exact lookupKey_eq_none.mpr h.1
    · rw [if_neg hk]
      simp only [lookupKey, if_neg hk]
      exact ih h.2

theorem storeKey_self {α : Type} {l : List (String × α)} {k : String} {v : α}
    (h : lookupKey l k = some v) : storeKey l k v = l := by
  induction l with
  | nil => simp [lookupKey] at h
  | cons q rest ih =>
    obtain ⟨k', v'⟩ := q
    simp only [lookupKey] at h
    simp only [storeKey]
    by_cases hk : k' = k
    · subst hk
      rw [if_pos rfl] at h
      obtain rfl : v' = v := by injection h
      rw [if_pos rfl]
    · rw [if_neg hk] at h
      rw [if_neg hk, ih h]

theorem filter_ne_of_lookup_none {α : Type} {l : List (String × α)} {k : String}
    (h : lookupKey l k = none) : l.filter (fun p => p.1 != k) = l := by
  induction l with
  | nil => simp
  | cons q rest ih =>
    obtain ⟨k', v'⟩ := q
    simp only [lookupKey] at h
    by_cases hk : k' = k
    · rw [if_pos hk] at h; exact absurd h (by simp)
    · rw [if_neg hk] at h
      simp only [List.filter_cons]
      rw [if_pos (by simpa using hk), ih h]

/-! ## Balancer well-formedness -/

/-- The structural invariant of a populated balancer snapshot: ids key
their upstreams uniquely, each upstream records its own id and a weight in
the tag range, the total is the sum of the weights, and the weighted table
is the Rehash rebuild of the upstream map. -/
def WFbal (b : WeightedRandom) : Prop :=
  (b.Upstreams.map Prod.fst).Nodup ∧
  (∀ p ∈ b.Upstreams, (p.2).ID = p.1 ∧ 1 ≤ (p.2).Weight ∧ (p.2).Weight ≤ 255) ∧
  b.Total = ((b.Upstreams.map Prod.snd).map (fun u => u.Weight)).sum ∧
  b.weighted = (b.Upstreams.map Prod.snd).flatMap (fun u => List.replicate u.Weight u)

instance (b : WeightedRandom) : Decidable (WFbal b) := by
  unfold WFbal
  infer_instance

theorem wf_newBalancer (tags : List String) : WFbal (NewBalancer tags) := by
  refine ⟨List.nodup_nil, ?_, rfl, rfl⟩
  intro p hp
  simp [NewBalancer] at hp

theorem wf_length {b : WeightedRandom} (h : WFbal b) : b.weighted.length = b.Total := by
  obtain ⟨-, -, htot, hw⟩ := h
  rw [hw, List.length_flatMap, htot]
  congr 1
  apply List.map_congr_left
  intro u _
  simp

theorem wf_total_pos {b : WeightedRandom} (h : WFbal b) (hne : b.Upstreams ≠ []) :
    1 ≤ b.Total := by
  obtain ⟨-, hall, htot, -⟩ := h
  cases hup : b.Upstreams with
  | nil => exact absurd hup hne
  | cons p rest =>
    have hp := hall p (hup ▸ List.mem_cons_self _ _)
    rw [htot, hup]
    simp only [List.map_cons, List.sum_cons]
    omega

theorem wf_nonempty_iff {b : WeightedRandom} (h : WFbal b) :
    b.weighted ≠ [] ↔ b.Upstreams ≠ [] := by
  constructor
  · intro hw hup
    obtain ⟨-, -, -, hwe⟩ := h
    rw [hwe, hup] at hw
    simp at hw
  · intro hup hnil
    have hlen := wf_length h
    have hpos := wf_total_pos h hup
    rw [hnil] at hlen
    simp at hlen
    omega

theorem count_flatMap_replicate (l : List (String × WeightedUpstream))
    (hno : (l.map Prod.fst).Nodup) (hids : ∀ p ∈ l, (p.2).ID = p.1) :
    ∀ id u, (id, u) ∈ l →
      ((l.map Prod.snd).flatMap (fun v => List.replicate v.Weight v)).count u
        = u.Weight := by
  induction l with
  | nil => intro id u h; simp at h
  | cons q rest ih =>
    obtain ⟨k, v⟩ := q
    intro id u hmem
    simp only [List.map_cons, List.nodup_cons] at hno
    simp only [List.map_cons, List.flatMap_cons, List.count_append]
    rcases List.mem_cons.mp hmem with heq | hmem'
    · rw [Prod.mk.injEq] at heq
      obtain ⟨rfl, rfl⟩ := heq
      have hcount0 : ((rest.map Prod.snd).flatMap
          (fun w => List.replicate w.Weight w)).count u = 0 := by
        rw [List.count_eq_zero]
        intro hin
        obtain ⟨w, hw, hin2⟩ := List.mem_flatMap.mp hin
        obtain ⟨p, hp, rfl⟩ := List.mem_map.mp hw
        have hupe : u = p.2 := List.eq_of_mem_replicate hin2
        have hid1 : (p.2).ID = p.1 := hids p (List.mem_cons_of_mem _ hp)
        have hid2 : u.ID = id := (hids (id, u) (List.mem_cons_self _ _))
        apply hno.1
        rw [List.mem_map]
        refine ⟨p, hp, ?_⟩
        rw [← hid1, ← hupe, hid2]
      rw [hcount0, List.count_replicate]
      simp
    · have hvne : (v == u) = false := by
        rw [beq_eq_false_iff_ne]
        intro hvu
        have hid1 : v.ID = k := (hids (k, v) (List.mem_cons_self _ _)).symm ▸
          (hids (k, v) (List.mem_cons_self _ _))
        have hid2 : u.ID = id := hids (id, u) (List.mem_cons_of_mem _ hmem')
        apply hno.1
        rw [List.mem_map]
        refine ⟨(id, u), hmem', ?_⟩
        rw [← hid2, ← hvu, hid1]
      rw [List.count_replicate, hvne, if_neg (by simp [← beq_iff_eq, hvne])]
      simpa using ih hno.2 (fun p hp => hids p (List.mem_cons_of_mem _ hp)) id u hmem'

theorem wf_count {b : WeightedRandom} (h : WFbal b) {id : String} {u : WeightedUpstream}
    (hmem : (id, u) ∈ b.Upstreams) : b.weighted.count u = u.Weight := by
  obtain ⟨hno, hall, -, hw⟩ := h
  rw [hw]
  exact count_flatMap_replicate _ hno (fun p hp => (hall p hp).1) id u hmem

theorem lookupKey_isSome_false_eq_none {α : Type} {l : List (String × α)} {k : String}
    (h : ¬ (lookupKey l k).isSome = true) : lookupKey l k = none := by
  cases hl : lookupKey l k with
  | none => rfl
  | some v => rw [hl] at h; simp at h

theorem add_ups_ne_nil (b : WeightedRandom) (s : ServiceRegistration) :
    (b.Add s).Upstreams ≠ [] := by
  unfold WeightedRandom.Add
  split
  · rename_i h
    intro hnil
    rw [hnil] at h
    simp [lookupKey] at h
  · simp [WeightedRandom.Rehash]

theorem wf_add {b : WeightedRandom} (hwf : WFbal b) (s : ServiceRegistration) :
    WFbal (b.Add s) := by
  unfold WeightedRandom.Add
  split
  · exact hwf
  · rename_i habs
    have hnot : s.ID ∉ b.Upstreams.map Prod.fst :=
      lookupKey_eq_none.mp (lookupKey_isSome_false_eq_none habs)
    refine ⟨?_, ?_, ?_, rfl⟩
    · simp only [WeightedRandom.Rehash, List.map_cons, List.nodup_cons]
      exact ⟨hnot, hwf.1⟩
    · intro p hp
      simp only [WeightedRandom.Rehash] at hp
      rcases List.mem_cons.mp hp with rfl | hp'
      · exact ⟨rfl, weightTag_pos s.Tags, weightTag_le s.Tags⟩
      · exact hwf.2.1 p hp'
    · simp only [WeightedRandom.Rehash, List.map_cons, List.sum_cons]

theorem wf_del {b : WeightedRandom} (hwf : WFbal b) (s : ServiceRegistration)
    {b' : WeightedRandom} (h : b.Del s = Handler.wr b') : WFbal b' := by
  unfold WeightedRandom.Del at h
  split at h
  · simp only [] at h
    split at h
    · exact absurd h (by simp)
    · obtain rfl : _ = b' := by injection h
      refine ⟨?_, ?_, rfl, rfl⟩
      · simp only [WeightedRandom.Rehash]
        exact List.Nodup.sublist
          (List.Sublist.map Prod.fst (List.filter_sublist b.Upstreams)) hwf.1
      · intro p hp
        simp only [WeightedRandom.Rehash] at hp
        exact hwf.2.1 p (List.mem_of_mem_filter hp)
  · obtain rfl : b = b' := by injection h
    exact hwf

theorem del_ups_ne_nil {b : WeightedRandom} (hne : b.Upstreams ≠ [])
    (s : ServiceRegistration) {b' : WeightedRandom} (h : b.Del s = Handler.wr b') :
    b'.Upstreams ≠ [] := by
  unfold WeightedRandom.Del at h
  split at h
  · simp only [] at h
    split at h
    · exact absurd h (by simp)
    · rename_i hlen
      obtain rfl : _ = b' := by injection h
      simp only [WeightedRandom.Rehash]
      intro hnil
      rw [hnil] at hlen
      simp at hlen
  · obtain rfl : b = b' := by injection h
    exact hne

/-- Handler-level well-formedness: the populated shape is well formed, the
terminal empty value carries nothing. -/
def WFh : Handler → Prop
  | .wr b => WFbal b
  | .empty => True

theorem wfh_add {h : Handler} (hwf : WFh h) (s : ServiceRegistration) :
    WFh (h.Add s) := by
  cases h with
  | wr b => exact wf_add hwf s
  | empty => exact wf_add (wf_newBalancer s.Tags) s

theorem wfh_del {h : Handler} (hwf : WFh h) (s : ServiceRegistration) :
    WFh (h.Del s) := by
  cases h with
  | wr b =>
    show WFh (b.Del s)
    cases hd : b.Del s with
    | wr b' => exact wf_del hwf s hd
    | empty => trivial
  | empty => trivial

/-! ## Reachable balancer snapshots (claim C7) -/

/-- Balancer snapshots produced by NewBalancer followed by any sequence of
Add and Del operations. -/
inductive BReach : Handler → Prop where
  | init (tags : List String) : BReach (Handler.wr (NewBalancer tags))
  | add {h : Handler} (s : ServiceRegistration) : BReach h → BReach (h.Add s)
  | del {h : Handler} (s : ServiceRegistration) : BReach h → BReach (h.Del s)

theorem breach_wf {h : Handler} (hr : BReach h) : WFh h := by
  induction hr with
  | init tags => exact wf_newBalancer tags
  | add s _ ih => exact wfh_add ih s
  | del s _ ih => exact wfh_del ih s

/-! ## Reachable registry states (claims C6, C10) -/

/-- Registry states reachable from the empty registry by controller Add
and Del events. -/
inductive RReach : Registry → Prop where
  | nil : RReach []
  | add {reg : Registry} (s : ServiceRegistration) : RReach reg →
      RReach (Controller.Add reg s)
  | del {reg : Registry} (s : ServiceRegistration) : RReach reg →
      RReach (Controller.Del reg s)

/-- The registry invariant: domain keys are unique and every installed
handler is a well-formed populated balancer with at least one upstream. -/
def RegInv (reg : Registry) : Prop :=
  (reg.map Prod.fst).Nodup ∧
  ∀ p ∈ reg, ∃ b, p.2 = Handler.wr b ∧ b.Upstreams ≠ [] ∧ WFbal b

theorem rreach_inv {reg : Registry} (h : RReach reg) : RegInv reg := by
  induction h with
  | nil => exact ⟨List.nodup_nil, by simp⟩
  | @add reg s _ ih =>
    unfold Controller.Add
    cases hd : DomainTag s.Tags with
    | none => exact ih
    | some domain =>
      dsimp only
      cases hl : lookupKey reg domain with
      | some hh =>
        dsimp only
        refine ⟨nodup_storeKey ih.1, ?_⟩
        intro p hp
        rcases mem_storeKey hp with rfl | hp'
        · obtain ⟨b, hb, hbne, hbwf⟩ := ih.2 (domain, hh) (lookupKey_mem hl)
          simp only [] at hb
          refine ⟨b.Add s, ?_, add_ups_ne_nil b s, wf_add hbwf s⟩
          show (hh.Add s) = _
          rw [show hh = Handler.wr b from hb]
          rfl
        · exact ih.2 p hp'
      | none =>
        dsimp only
        refine ⟨nodup_storeKey ih.1, ?_⟩
        intro p hp
        rcases mem_storeKey hp with rfl | hp'
        · exact ⟨(NewBalancer s.Tags).Add s, rfl,
            add_ups_ne_nil (NewBalancer s.Tags) s,
            wf_add (wf_newBalancer s.Tags) s⟩
        · exact ih.2 p hp'
  | @del reg s _ ih =>
    unfold Controller.Del
    cases hd : DomainTag s.Tags with
    | none => exact ih
    | some domain =>
      dsimp only
      cases hl : lookupKey reg domain with
      | none => exact ih
      | some hh =>
        dsimp only
        obtain ⟨b, hb, hbne, hbwf⟩ := ih.2 (domain, hh) (lookupKey_mem hl)
        simp only [] at hb
        have hdel : hh.Del s = b.Del s := by
          rw [show hh = Handler.wr b from hb]; rfl
        cases hcase : b.Del s with
        | empty =>
          rw [hdel, hcase]
          simp only [Handler.Empty, if_pos]
          exact ⟨nodup_eraseKey ih.1, fun p hp => ih.2 p (mem_eraseKey hp)⟩
        | wr b' =>
          rw [hdel, hcase]
          simp only [Handler.Empty]
          rw [if_neg (by simp)]
          refine ⟨nodup_storeKey ih.1, ?_⟩
          intro p hp
          rcases mem_storeKey hp with rfl | hp'
          · exact ⟨b', rfl, del_ups_ne_nil hbne s hcase, wf_del hbwf s hcase⟩
          · exact ih.2 p hp'

/-! ## Counting lemmas for uniform selection -/

theorem card_range_filter_mod (N T r : Nat) (hT : 0 < T) (hr : r < T) :
    ((Finset.range N).filter (fun v => v % T = r)).card
      = N / T + if r < N % T then 1 else 0 := by
  have himg : (Finset.range N).filter (fun v => v % T = r)
      = (Finset.range (N / T + if r < N % T then 1 else 0)).image
          (fun i => i * T + r) := by
    ext v
    simp only [Finset.mem_filter, Finset.mem_range, Finset.mem_image]
    constructor
    · rintro ⟨hvN, hvr⟩
      refine ⟨v / T, ?_, ?_⟩
      · have hle : v / T ≤ N / T := Nat.div_le_div_right (le_of_lt hvN)
        by_cases hcase : r < N % T
        · rw [if_pos hcase]
          exact Nat.lt_succ_of_le hle
        · rw [if_neg hcase]
          rcases Nat.lt_or_ge (v / T) (N / T) with hlt | hge
          · simpa using hlt
          · exfalso
            have heq : v / T = N / T := le_antisymm hle hge
            have hv := Nat.div_add_mod v T
            have hN := Nat.div_add_mod N T
            rw [heq] at hv
            have hler : N % T ≤ r := Nat.le_of_not_lt hcase
            linarith
      · have hv := Nat.div_add_mod v T
        rw [hvr] at hv
        have hc : T * (v / T) = v / T * T := Nat.mul_comm _ _
        linarith
    · rintro ⟨i, hi, rfl⟩
      refine ⟨?_, ?_⟩
      · have hN := Nat.div_add_mod N T
        by_cases hcase : r < N % T
        · rw [if_pos hcase] at hi
          have h1 : i ≤ N / T := Nat.lt_succ_iff.mp hi
          have h2 : i * T ≤ N / T * T := Nat.mul_le_mul_right T h1
          have h3 : T * (N / T) = N / T * T := Nat.mul_comm _ _
          linarith
        · rw [if_neg hcase] at hi
          rw [Nat.add_zero] at hi
          have h2 : (i + 1) * T ≤ N / T * T := Nat.mul_le_mul_right T hi
          have h3 : N / T * T ≤ N := Nat.div_mul_le_self N T
          have h5 : (i + 1) * T = i * T + T := by ring
          have h6 : i * T + r < i * T + T := Nat.add_lt_add_left hr _
          linarith
      · rw [Nat.add_comm (i * T) r, Nat.add_mul_mod_self_right]
        exact Nat.mod_eq_of_lt hr
  rw [himg]
  rw [Finset.card_image_of_injective _ ?hinj, Finset.card_range]
  case hinj =>
    intro a b hab
    simp only at hab
    have := Nat.add_right_cancel hab
    exact Nat.eq_of_mul_eq_mul_right hT this

theorem card_range_filter_mod_comp (N T : Nat) (hT : 0 < T) (P : Nat → Prop)
    [DecidablePred P] :
    ((Finset.range N).filter (fun v => P (v % T))).card
      = ∑ r ∈ (Finset.range T).filter P, (N / T + if r < N % T then 1 else 0) := by
  have hmem : ∀ v ∈ (Finset.range N).filter (fun v => P (v % T)),
      v % T ∈ (Finset.range T).filter P := by
    intro v hv
    simp only [Finset.mem_filter, Finset.mem_range] at hv ⊢
    exact ⟨Nat.mod_lt _ hT, hv.2⟩
  rw [Finset.card_eq_sum_card_fiberwise hmem]
  apply Finset.sum_congr rfl
  intro r hr
  simp only [Finset.mem_filter, Finset.mem_range] at hr
  rw [Finset.filter_filter]
  have hcong : Finset.filter (fun v => P (v % T) ∧ v % T = r) (Finset.range N)
      = Finset.filter (fun v => v % T = r) (Finset.range N) :=
    Finset.filter_congr (fun v _ =>
      ⟨fun hh => hh.2, fun hh => ⟨by rw [hh]; exact hr.2, hh⟩⟩)
  rw [hcong, card_range_filter_mod N T r hT hr.1]

theorem card_range_filter_mod_comp_dvd (N T : Nat) (hT : 0 < T) (hdvd : T ∣ N)
    (P : Nat → Prop) [DecidablePred P] :
    ((Finset.range N).filter (fun v => P (v % T))).card
      = ((Finset.range T).filter P).card * (N / T) := by
  rw [card_range_filter_mod_comp N T hT P]
  have hmod : N % T = 0 := by omega
  simp only [hmod, Nat.not_lt_zero, if_false, Nat.add_zero]
  rw [Finset.sum_const, smul_eq_mul]

theorem card_filter_getElem_eq_count (l : List WeightedUpstream)
    (u : WeightedUpstream) :
    ((Finset.range l.length).filter (fun r => l[r]? = some u)).card = l.count u := by
  induction l with
  | nil => simp
  | cons x xs ih =>
    rw [Finset.card_filter, List.length_cons, Finset.sum_range_succ']
    simp only [List.getElem?_cons_succ, List.getElem?_cons_zero, Option.some.injEq]
    rw [← Finset.card_filter, ih, List.count_cons]
    by_cases hx : x = u
    · rw [if_pos hx, if_pos (by simpa using hx)]
    · rw [if_neg hx, if_neg (by simpa using hx)]

theorem beValue_toBytes {v : Nat} (hv : v < 2 ^ 64) : beValue (toBytes v) = v := by
  unfold beValue toBytes
  simp only [List.getD, List.getElem?_cons_succ, List.getElem?_cons_zero,
    Option.getD_some]
  simp only [Nat.shiftLeft_eq, Nat.shiftRight_eq_div_pow]
  norm_num
  omega

/-! ## Resume-index lemmas (Controller.Updater INIT phase) -/

theorem resumeFold_acc_le (l : List Nat) :
    ∀ acc : Nat,
      acc ≤ l.foldl (fun idx last => if idx < last then last + 1 else idx) acc := by
  induction l with
  | nil => intro acc; simp
  | cons i rest ih =>
    intro acc
    simp only [List.foldl_cons]
    calc acc ≤ (if acc < i then i + 1 else acc) := by split <;> omega
    _ ≤ _ := ih _

theorem mem_le_resumeFold (l : List Nat) :
    ∀ acc : Nat, ∀ j ∈ l,
      j ≤ l.foldl (fun idx last => if idx < last then last + 1 else idx) acc := by
  induction l with
  | nil => simp
  | cons i rest ih =>
    intro acc j hj
    simp only [List.foldl_cons]
    rcases List.mem_cons.mp hj with rfl | hj'
    · calc j ≤ (if acc < j then j + 1 else acc) := by split <;> omega
      _ ≤ _ := resumeFold_acc_le rest _
    · exact ih _ j hj'

theorem resumeFold_le (l : List Nat) :
    ∀ acc : Nat,
      l.foldl (fun idx last => if idx < last then last + 1 else idx) acc
        ≤ max acc (l.foldr max 0 + 1) := by
  induction l with
  | nil => intro acc; simp
  | cons i rest ih =>
    intro acc
    simp only [List.foldl_cons, List.foldr_cons]
    refine le_trans (ih _) ?_
    have hstep : (if acc < i then i + 1 else acc) ≤ max acc (max i (rest.foldr max 0) + 1) := by
      split <;> omega
    omega

theorem foldr_max_le (l : List Nat) (n : Nat) (h : ∀ j ∈ l, j ≤ n) :
    l.foldr max 0 ≤ n := by
  induction l with
  | nil => simp
  | cons i rest ih =>
    simp only [List.foldr_cons, Nat.max_le]
    exact ⟨h i (List.mem_cons_self _ _),
      ih fun j hj => h j (List.mem_cons_of_mem _ hj)⟩

theorem resumeFold_const (l : List Nat) :
    ∀ acc : Nat, (∀ i ∈ l, i ≤ acc) →
      l.foldl (fun idx last => if idx < last then last + 1 else idx) acc = acc := by
  induction l with
  | nil => intro acc _; simp
  | cons i rest ih =>
    intro acc hall
    simp only [List.foldl_cons]
    have hi : i ≤ acc := hall i (List.mem_cons_self _ _)
    rw [if_neg (by omega)]
    exact ih acc fun j hj => hall j (List.mem_cons_of_mem _ hj)

/-! ## Weight selection expressed as the amended specification words -/

/-- The corrected weight-selection rule stated from the amended
specification: among the values of all weight-tag markers, parsed with
ParseUint(_, 10, 8), the first positive one wins; otherwise 1. -/
def specWeight (tags : List String) : Nat :=
  (((tags.filterMap (fun t => cutPfx t WeightTagPfx)).map parseUint8).find?
    (fun v => decide (0 < v))).getD 1

theorem weightTag_eq_specWeight (tags : List String) :
    (WeightTag tags).1 = specWeight tags := by
  induction tags with
  | nil => rfl
  | cons tag rest ih =>
    unfold WeightTag specWeight
    cases h : cutPfx tag WeightTagPfx with
    | none =>
      simp only [List.filterMap_cons, h]
      exact ih
    | some val =>
      simp only [List.filterMap_cons, h, List.map_cons]
      by_cases hpos : 0 < parseUint8 val
      · rw [if_pos hpos, List.find?_cons_of_pos _ (by simpa using hpos)]
        rfl
      · rw [if_neg hpos, List.find?_cons_of_neg _ (by simpa using hpos)]
        exact ih

/-! ## Concrete sample data for witnesses and counterexamples -/

/-- A registration with id a and default weight for domain demo.test. -/
def svcA : ServiceRegistration :=
  { ID := "a", ServiceName := "websvc", Namespace := "default", JobID := "web",
    AllocID := "alloc-a", Address := "10.0.0.1", Port := 8080,
    Tags := ["nimby-domain:demo.test"] }

/-- A registration with id b and default weight for domain demo.test. -/
def svcB : ServiceRegistration :=
  { ID := "b", ServiceName := "websvc", Namespace := "default", JobID := "web",
    AllocID := "alloc-b", Address := "10.0.0.2", Port := 8080,
    Tags := ["nimby-domain:demo.test"] }

/-- A registration with id c and weight 2 for domain demo.test. -/
def svcC : ServiceRegistration :=
  { ID := "c", ServiceName := "websvc", Namespace := "default", JobID := "web",
    AllocID := "alloc-c", Address := "10.0.0.3", Port := 8080,
    Tags := ["nimby-domain:demo.test", "nimby-weight:2"] }

/-- A re-registration of id a carrying a changed weight tag. -/
def svcA7 : ServiceRegistration :=
  { ID := "a", ServiceName := "websvc", Namespace := "default", JobID := "web",
    AllocID := "alloc-a2", Address := "10.0.0.1", Port := 8080,
    Tags := ["nimby-domain:demo.test", "nimby-weight:7"] }

/-- A deregistration for an id unknown to the demo.test balancer. -/
def svcZ : ServiceRegistration :=
  { ID := "zz", ServiceName := "websvc", Namespace := "default", JobID := "web",
    AllocID := "alloc-z", Address := "10.0.0.9", Port := 8080,
    Tags := ["nimby-domain:demo.test"] }

/-- The balancer holding only svcA. -/
def bA : WeightedRandom := (NewBalancer svcA.Tags).Add svcA

/-- The balancer holding svcA and svcB, total weight 2. -/
def bAB : WeightedRandom := ((NewBalancer svcA.Tags).Add svcA).Add svcB

/-- The balancer holding svcA and svcC, total weight 3. -/
def bAC : WeightedRandom := ((NewBalancer svcA.Tags).Add svcA).Add svcC

/-- The upstream value built from svcA. -/
def uA : WeightedUpstream :=
  { ID := "a", JobID := "web", AllocID := "alloc-a", Weight := 1,
    Endpoint := { Scheme := "http", Host := "10.0.0.1:8080", Path := "/" } }

/-! ## Claim theorems -/

/-- C2 (code bug): with the wildcard configuration and a listing of two
services, the expansion loop iterates both listed names, but the topic set
passed to Stream is controller.WatchServices, whose backing array the
aliased append clobbered: it carries only the first listed name, not the
set of names returned by the listing as the claim states. -/
theorem updater_stream_topics_clobbered :
    resolveWatch ["*"] ["alpha", "beta"] = (["alpha", "beta"], ["alpha"]) ∧
    (resolveWatch ["*"] ["alpha", "beta"]).2 ≠ ["alpha", "beta"] ∧
    "beta" ∉ (resolveWatch ["*"] ["alpha", "beta"]).2 := by
  decide

/-- C3 (counterexample): with observed modify indices 5 then 6 the Updater
resume fold yields 6, not max plus one, which is 7: the guard compares the
next LastIndex against the already incremented resume value. -/
theorem resume_index_cex :
    resumeIndex [5, 6] = 6 ∧ [5, 6].foldr max 0 + 1 = 7 ∧
    resumeIndex [5, 6] ≠ [5, 6].foldr max 0 + 1 := by
  decide

/-- C3 (amended): the resume index computed by the INIT phase lies between
the maximum observed index and that maximum plus one; it equals max plus
one whenever all observed indices are equal and positive, in particular
when every service reports the same directory-wide modify index. -/
theorem resume_index_bounds (observed : List Nat) :
    observed.foldr max 0 ≤ resumeIndex observed ∧
    resumeIndex observed ≤ observed.foldr max 0 + 1 ∧
    (∀ j, 0 < j → observed ≠ [] → (∀ i ∈ observed, i = j) →
       resumeIndex observed = j + 1) := by
  refine ⟨?_, ?_, ?_⟩
  · exact foldr_max_le observed _ (mem_le_resumeFold observed 0)
  · have := resumeFold_le observed 0
    unfold resumeIndex
    omega
  · intro j hj hne hall
    cases hl : observed with
    | nil => exact absurd hl hne
    | cons i rest =>
      have hi : i = j := hall i (by rw [hl]; exact List.mem_cons_self _ _)
      unfold resumeIndex
      simp only [List.foldl_cons]
      rw [hi, if_pos hj]
      exact resumeFold_const rest (j + 1) fun i' hi' => by
        rw [hall i' (by rw [hl]; exact List.mem_cons_of_mem _ hi')]
        omega

/-- Witness for the amended C3 bounds at the observed index list with the
single entry 5 and at the constant list of two fives. -/
theorem resume_index_bounds_witness :
    ([5, 5] : List Nat).foldr max 0 ≤ resumeIndex [5, 5] ∧
    resumeIndex [5, 5] ≤ ([5, 5] : List Nat).foldr max 0 + 1 ∧
    resumeIndex [5, 5] = 6 :=
  ⟨(resume_index_bounds [5, 5]).1, (resume_index_bounds [5, 5]).2.1,
    (resume_index_bounds [5, 5]).2.2 5 (by decide) (by decide) (by decide)⟩

/-- C4 (counterexample): the tag list whose first weight marker is zero
and whose second is 5 produces weight 5: the scan does not stop at the
first weight-prefixed tag as the claim states, so the first tag being
zero does not force the default. -/
theorem weight_tag_first_tag_cex :
    WeightTag ["nimby-weight:0", "nimby-weight:5"] = (5, true) ∧
    (WeightTag ["nimby-weight:0", "nimby-weight:5"]).1 ≠ 1 := by
  decide

/-- C4 (amended): the extracted weight is the first positive ParseUint
value among all weight-prefixed tags (out-of-range numerals clamp to 255,
malformed ones parse to zero and are skipped), defaulting to 1; the value
always lies in the range from 1 to 255, and the tag values 0, -1 and
absence all resolve to the default weight 1 with the found flag false. -/
theorem weight_tag_first_positive :
    (∀ tags, (WeightTag tags).1 = specWeight tags ∧
       1 ≤ (WeightTag tags).1 ∧ (WeightTag tags).1 ≤ 255) ∧
    WeightTag ["nimby-weight:0"] = (1, false) ∧
    WeightTag ["nimby-weight:-1"] = (1, false) ∧
    WeightTag [] = (1, false) := by
  refine ⟨fun tags =>
    ⟨weightTag_eq_specWeight tags, weightTag_pos tags, weightTag_le tags⟩,
    by decide, by decide, by decide⟩

/-- C5: Add is idempotent: when the id is already present the snapshot is
returned unchanged, hence upstream count and total weight are unchanged,
regardless of the weight tag carried by the re-registration. -/
theorem add_idempotent (b : WeightedRandom) (s : ServiceRegistration)
    (hhas : (lookupKey b.Upstreams s.ID).isSome = true) :
    b.Add s = b ∧ (b.Add s).Upstreams.length = b.Upstreams.length ∧
    (b.Add s).Total = b.Total := by
  have h : b.Add s = b := by
    unfold WeightedRandom.Add
    rw [if_pos hhas]
  exact ⟨h, by rw [h], by rw [h]⟩

/-- Witness for C5: re-adding id a to the balancer already holding it,
with a changed weight tag of 7, returns the snapshot unchanged. -/
theorem add_idempotent_witness :
    (lookupKey bA.Upstreams svcA7.ID).isSome = true ∧
    (bA.Add svcA7 = bA ∧ (bA.Add svcA7).Upstreams.length = bA.Upstreams.length ∧
      (bA.Add svcA7).Total = bA.Total) :=
  ⟨by decide, add_idempotent bA svcA7 (by decide)⟩

/-- C9: a deregistration for a domain with no registry entry, or for an id
not present in the domain's balancer, leaves the registry unchanged (and,
at the balancer level, Del of an absent id returns the snapshot
unchanged); no error is raised: the model is a total function. -/
theorem del_unknown_noop (reg : Registry) (s : ServiceRegistration) (d : String)
    (b : WeightedRandom) :
    (DomainTag s.Tags = some d → lookupKey reg d = none →
       Controller.Del reg s = reg) ∧
    (DomainTag s.Tags = some d → lookupKey reg d = some (Handler.wr b) →
       lookupKey b.Upstreams s.ID = none → Controller.Del reg s = reg) ∧
    (lookupKey b.Upstreams s.ID = none → b.Del s = Handler.wr b) := by
  refine ⟨?_, ?_, ?_⟩
  · intro hd hl
    unfold Controller.Del
    rw [hd]
    dsimp only
    rw [hl]
  · intro hd hl habs
    unfold Controller.Del
    rw [hd]
    dsimp only
    rw [hl]
    dsimp only
    have hbd : (Handler.wr b).Del s = Handler.wr b := by
      show b.Del s = _
      unfold WeightedRandom.Del
      rw [if_neg (by rw [habs]; simp)]
    rw [hbd]
    rw [if_neg (by simp [Handler.Empty])]
    exact storeKey_self hl
  · intro habs
    unfold WeightedRandom.Del
    rw [if_neg (by rw [habs]; simp)]

/-- Witness for C9: deleting the unknown id zz from the registry holding
only id a under demo.test changes nothing, at the registry and at the
balancer level. -/
theorem del_unknown_noop_witness :
    Controller.Del (Controller.Add [] svcA) svcZ = Controller.Add [] svcA ∧
    bA.Del svcZ = Handler.wr bA := by
  have hth := del_unknown_noop (Controller.Add [] svcA) svcZ "demo.test" bA
  exact ⟨hth.2.1 (by decide) (by decide) (by decide), hth.2.2 (by decide)⟩

/-- C6: in every reachable registry state a domain key maps only to a
populated, non-empty balancer (no empty balancer persists under a key),
and deleting the last upstream of a domain removes the key entirely, after
which dispatching that Host answers 404. -/
theorem domain_key_iff_nonempty (reg : Registry) (hreach : RReach reg) :
    (∀ d h, lookupKey reg d = some h →
       ∃ b, h = Handler.wr b ∧ b.Upstreams ≠ []) ∧
    (∀ s d b u, DomainTag s.Tags = some d →
       lookupKey reg d = some (Handler.wr b) → b.Upstreams = [(s.ID, u)] →
       lookupKey (Controller.Del reg s) d = none ∧
       ∀ buf, Controller.Dispatch (Controller.Del reg s) d buf
         = HTTPResult.notFound) := by
  have hinv := rreach_inv hreach
  constructor
  · intro d h hl
    obtain ⟨b, hb, hbne, -⟩ := hinv.2 (d, h) (lookupKey_mem hl)
    exact ⟨b, hb, hbne⟩
  · intro s d b u hd hl hone
    have hbd : (Handler.wr b).Del s = Handler.empty := by
      show b.Del s = Handler.empty
      unfold WeightedRandom.Del
      rw [hone]
      rw [if_pos (by simp [lookupKey])]
      simp [List.filter]
    have hdel : Controller.Del reg s = eraseKey reg d := by
      unfold Controller.Del
      rw [hd]
      dsimp only
      rw [hl]
      dsimp only
      rw [hbd]
      rfl
    have hnone : lookupKey (eraseKey reg d) d = none :=
      lookupKey_eraseKey_self hinv.1
    rw [hdel]
    refine ⟨hnone, fun buf => ?_⟩
    unfold Controller.Dispatch
    rw [hnone]

/-- Witness for C6 at the registry holding only id a under demo.test:
its key maps to a non-empty balancer, and deleting id a removes the key. -/
theorem domain_key_iff_nonempty_witness :
    (∃ b, Handler.wr bA = Handler.wr b ∧ b.Upstreams ≠ []) ∧
    lookupKey (Controller.Del (Controller.Add [] svcA) svcA) "demo.test" = none := by
  have hth := domain_key_iff_nonempty (Controller.Add [] svcA)
    (RReach.add svcA RReach.nil)
  exact ⟨hth.1 "demo.test" (Handler.wr bA) (by decide),
    (hth.2 svcA "demo.test" bA uA (by decide) (by decide) (by decide)).1⟩

/-- C7: every balancer snapshot reachable from NewBalancer by Add and Del
keeps the selection table invariant: table length equals the total weight,
each stored upstream occupies exactly its weight of table slots, and the
table is non-empty exactly when the upstream set is. -/
theorem selection_table_invariant (h : Handler) (b : WeightedRandom)
    (hreach : BReach h) (heq : h = Handler.wr b) :
    b.weighted.length = b.Total ∧
    (∀ p ∈ b.Upstreams, b.weighted.count p.2 = p.2.Weight) ∧
    (b.weighted ≠ [] ↔ b.Upstreams ≠ []) := by
  have hwf : WFbal b := by
    have hwfh := breach_wf hreach
    rw [heq] at hwfh
    exact hwfh
  refine ⟨wf_length hwf, ?_, wf_nonempty_iff hwf⟩
  intro p hp
  obtain ⟨pid, pu⟩ := p
  exact wf_count hwf hp

/-- Witness for C7 at the two-upstream balancer with weights 1 and 2. -/
theorem selection_table_invariant_witness :
    bAC.weighted.length = bAC.Total ∧
    (∀ p ∈ bAC.Upstreams, bAC.weighted.count p.2 = p.2.Weight) ∧
    (bAC.weighted ≠ [] ↔ bAC.Upstreams ≠ []) :=
  selection_table_invariant
    (((Handler.wr (NewBalancer svcA.Tags)).Add svcA).Add svcC) bAC
    (BReach.add svcC (BReach.add svcA (BReach.init svcA.Tags)))
    (by decide)

/-- C8 (counterexample): when the id is already present the claim fails:
Add of id a onto the balancer already holding only id a is a no-op, and
the following Del empties the balancer, so the round trip does not
preserve the upstream set or the total weight. -/
theorem add_del_roundtrip_cex :
    ((Handler.wr bA).Add svcA).Del svcA = Handler.empty ∧
    (((Handler.wr bA).Add svcA).Del svcA).ups ≠ bA.Upstreams ∧
    (((Handler.wr bA).Add svcA).Del svcA).total ≠ bA.Total := by
  decide

/-- C8 (amended): for a well-formed snapshot that does not already hold
the registration's id, Add then Del of that id restores an equivalent
snapshot: the same upstream set and the same total weight (the table
itself is rebuilt and its order is not compared). -/
theorem add_del_roundtrip (b : WeightedRandom) (s : ServiceRegistration)
    (hwf : WFbal b) (habs : lookupKey b.Upstreams s.ID = none) :
    (((Handler.wr b).Add s).Del s).ups = b.Upstreams ∧
    (((Handler.wr b).Add s).Del s).total = b.Total := by
  have hne : ¬ (lookupKey b.Upstreams s.ID).isSome = true := by rw [habs]; simp
  have hAups : (b.Add s).Upstreams
      = (s.ID,
          { ID := s.ID, JobID := s.JobID, AllocID := s.AllocID,
            Weight := (WeightTag s.Tags).1,
            Endpoint := UpstreamService s }) :: b.Upstreams := by
    unfold WeightedRandom.Add
    rw [if_neg hne]
    rfl
  have hAl : lookupKey (b.Add s).Upstreams s.ID
      = some { ID := s.ID, JobID := s.JobID, AllocID := s.AllocID,
               Weight := (WeightTag s.Tags).1,
               Endpoint := UpstreamService s } := by
    rw [hAups]
    simp [lookupKey]
  have hfilter : (b.Add s).Upstreams.filter (fun p => p.1 != s.ID)
      = b.Upstreams := by
    rw [hAups, List.filter_cons]
    rw [if_neg (by simp)]
    exact filter_ne_of_lookup_none habs
  show ((b.Add s).Del s).ups = _ ∧ ((b.Add s).Del s).total = _
  unfold WeightedRandom.Del
  rw [hAl]
  simp only [Option.isSome_some, if_true, hfilter]
  by_cases hcase : b.Upstreams.length = 0
  · rw [if_pos hcase]
    have hnil : b.Upstreams = [] := List.length_eq_zero.mp hcase
    constructor
    · show ([] : List (String × WeightedUpstream)) = b.Upstreams
      rw [hnil]
    · show 0 = b.Total
      rw [hwf.2.2.1, hnil]
      rfl
  · rw [if_neg hcase]
    constructor
    · rfl
    · show ((b.Upstreams.map Prod.snd).map fun u => u.Weight).sum = b.Total
      exact hwf.2.2.1.symm

/-- Witness for the amended C8: adding id b to the balancer holding only
id a and deleting it again restores the original upstream set and total. -/
theorem add_del_roundtrip_witness :
    WFbal bA ∧ lookupKey bA.Upstreams svcB.ID = none ∧
    ((((Handler.wr bA).Add svcB).Del svcB).ups = bA.Upstreams ∧
      (((Handler.wr bA).Add svcB).Del svcB).total = bA.Total) :=
  ⟨by decide, by decide, add_del_roundtrip bA svcB (by decide) (by decide)⟩

/-- C10 (implicit safety): every populated balancer installed in a
reachable registry has total weight at least one and a table whose length
is the total, so Next never reduces modulo zero and its table index is in
bounds: the selection is always defined. -/
theorem installed_next_safe (reg : Registry) (d : String) (b : WeightedRandom)
    (hreach : RReach reg) (hl : lookupKey reg d = some (Handler.wr b)) :
    1 ≤ b.Total ∧ b.weighted.length = b.Total ∧
    ∀ buf, (b.Next buf).isSome = true := by
  have hinv := rreach_inv hreach
  obtain ⟨b', hb', hbne, hbwf⟩ := hinv.2 (d, Handler.wr b) (lookupKey_mem hl)
  simp only [] at hb'
  have hbeq : b = b' := by injection hb'
  subst hbeq
  have hpos := wf_total_pos hbwf hbne
  have hlen := wf_length hbwf
  refine ⟨hpos, hlen, fun buf => ?_⟩
  unfold WeightedRandom.Next
  rw [if_neg (by omega)]
  have hidx : beValue buf % b.Total < b.weighted.length := by
    rw [hlen]
    exact Nat.mod_lt _ (by omega)
  simp [List.getElem?_eq_getElem hidx]

/-- Witness for C10 at the registry holding only id a under demo.test. -/
theorem installed_next_safe_witness :
    1 ≤ bA.Total ∧ bA.weighted.length = bA.Total ∧
    ∀ buf, (bA.Next buf).isSome = true :=
  installed_next_safe (Controller.Add [] svcA) "demo.test" bA
    (RReach.add svcA RReach.nil) (by decide)

/-- C1 (counterexample): on the reachable balancer with upstreams of
weights 1 and 2 the total is 3, which does not divide 2 to the 64th: the
number of byte draws selecting the weight-1 upstream times the total is
one short of 2 to the 64th, so the selection probability is not exactly
weight over total as the claim states. -/
theorem next_exact_probability_cex :
    ¬ (countSel bAC uA * bAC.Total = uA.Weight * 2 ^ 64) := by
  have hstep : (Finset.range (2 ^ 64)).filter
        (fun v => bAC.Next (toBytes v) = some uA)
      = (Finset.range (2 ^ 64)).filter (fun v => bAC.weighted[v % 3]? = some uA) :=
    Finset.filter_congr (fun v hv => by
      rw [Finset.mem_range] at hv
      unfold WeightedRandom.Next
      rw [if_neg (show ¬ bAC.Total = 0 by decide), beValue_toBytes hv,
        show bAC.Total = 3 from by decide])
  have hsel : countSel bAC uA = 2 ^ 64 / 3 := by
    unfold countSel
    rw [hstep]
    calc ((Finset.range (2 ^ 64)).filter
          (fun v => bAC.weighted[v % 3]? = some uA)).card
        = ∑ r ∈ (Finset.range 3).filter (fun r => bAC.weighted[r]? = some uA),
            (2 ^ 64 / 3 + if r < 2 ^ 64 % 3 then 1 else 0) :=
          card_range_filter_mod_comp (2 ^ 64) 3 (by norm_num)
            (fun r => bAC.weighted[r]? = some uA)
      _ = ∑ r ∈ ({2} : Finset Nat),
            (2 ^ 64 / 3 + if r < 2 ^ 64 % 3 then 1 else 0) := by
          rw [show (Finset.range 3).filter (fun r => bAC.weighted[r]? = some uA)
            = ({2} : Finset Nat) from by decide]
      _ = 2 ^ 64 / 3 := by
          rw [Finset.sum_singleton]
          norm_num
  rw [hsel, show bAC.Total = 3 from by decide, show uA.Weight = 1 from by decide]
  decide

/-- C1 (amended): Next interprets the 8 drawn bytes as a big-endian
unsigned 64-bit value, reduces it modulo the total weight and returns the
selection-table entry at that index; modeling the bytes as uniform over
all 2 to the 64th values, the probability of selecting upstream u, as the
counting fraction countSel over 2 to the 64th, equals weight(u) over the
total exactly whenever the total divides 2 to the 64th (by the
counterexample the exactness fails for other totals, where the deviation
is bounded by total over 2 to the 64th). -/
theorem next_uniform_selection (b : WeightedRandom) (id : String)
    (u : WeightedUpstream) (hwf : WFbal b) (hpos : 0 < b.Total)
    (hdvd : b.Total ∣ 2 ^ 64) (hmem : (id, u) ∈ b.Upstreams) :
    (∀ v, v < 2 ^ 64 → b.Next (toBytes v) = b.weighted[v % b.Total]?) ∧
    countSel b u * b.Total = u.Weight * 2 ^ 64 := by
  have hnz : ¬ b.Total = 0 := by omega
  constructor
  · intro v hv
    unfold WeightedRandom.Next
    rw [if_neg hnz, beValue_toBytes hv]
  · have hstep : (Finset.range (2 ^ 64)).filter
          (fun v => b.Next (toBytes v) = some u)
        = (Finset.range (2 ^ 64)).filter
            (fun v => b.weighted[v % b.Total]? = some u) :=
      Finset.filter_congr (fun v hv => by
        rw [Finset.mem_range] at hv
        unfold WeightedRandom.Next
        rw [if_neg hnz, beValue_toBytes hv])
    have hcard : ((Finset.range (2 ^ 64)).filter
          (fun v => b.weighted[v % b.Total]? = some u)).card
        = ((Finset.range b.Total).filter (fun r => b.weighted[r]? = some u)).card
            * (2 ^ 64 / b.Total) :=
      card_range_filter_mod_comp_dvd (2 ^ 64) b.Total hpos hdvd
        (fun r => b.weighted[r]? = some u)
    have hslots : ((Finset.range b.Total).filter
          (fun r => b.weighted[r]? = some u)).card = u.Weight := by
      rw [← wf_length hwf, card_filter_getElem_eq_count]
      exact wf_count hwf hmem
    unfold countSel
    rw [hstep, hcard, hslots, Nat.mul_assoc, Nat.div_mul_cancel hdvd]

/-- Witness for the amended C1 at the two-upstream balancer with weights
1 and 1, whose total 2 divides 2 to the 64th. -/
theorem next_uniform_selection_witness :
    WFbal bAB ∧ 0 < bAB.Total ∧ bAB.Total ∣ 2 ^ 64 ∧
    ("a", uA) ∈ bAB.Upstreams ∧
    ((∀ v, v < 2 ^ 64 → bAB.Next (toBytes v) = bAB.weighted[v % bAB.Total]?) ∧
      countSel bAB uA * bAB.Total = uA.Weight * 2 ^ 64) :=
  ⟨by decide, by decide, ⟨2 ^ 63, by decide⟩, by decide,
    next_uniform_selection bAB "a" uA (by decide) (by decide)
      ⟨2 ^ 63, by decide⟩ (by decide)⟩
